import Mathlib

/-!
Verification development for the sandstorm Cairo prover core.

The Rust sources embedded here are src/src/binary.rs, src/src/lib.rs and
src/src/prover.rs. Machine integers (usize, u8, u64, U256) are modelled as
Nat with explicit range facts where overflow or truncation matters; code
that can panic (unwrap, unreachable, debug_assert, usize underflow) is
modelled with Option or Except so the panic is an explicit error value.
-/

set_option maxRecDepth 8192

namespace Sandstorm

/-- Word offset of off_DST (binary.rs line 19). -/
def OFF_DST_BIT_OFFSET : Nat := 0

/-- Word offset of off_OP0 (binary.rs line 21). -/
def OFF_OP0_BIT_OFFSET : Nat := 16

/-- Word offset of off_OP1 (binary.rs line 23). -/
def OFF_OP1_BIT_OFFSET : Nat := 32

/-- Word offset of the instruction flags (binary.rs line 25). -/
def FLAGS_BIT_OFFSET : Nat := 48

/-- Half of the 16-bit offset range, 2 to the 15 (binary.rs line 34). -/
def HALF_OFFSET : Nat := 32768

/-- Modulus of the concrete field Fp used by lib.rs: the Cairo prime
2 to the 251 plus 17 times 2 to the 192 plus 1. -/
def FpModulus : Nat :=
  3618502788666131213697322783095070105623107215331596699973092056135872020481

/-- Cairo instruction flag. Modelled from the spec: binary.rs imports this
enum from layouts::layout6 which is outside src/; the spec (section 3) fixes
the 16 bit positions (dst reg, op0 reg, op1 src times 3, res logic times 2,
pc update times 3, ap update times 2, opcode times 3, one reserved padding
flag last), and lib.rs (lines 51 to 83) declares the identical enum locally,
naming the padding flag _Unused where layout6 names it Zero. -/
inductive Flag where
  | DstReg
  | Op0Reg
  | Op1Imm
  | Op1Fp
  | Op1Ap
  | ResAdd
  | ResMul
  | PcJumpAbs
  | PcJumpRel
  | PcJnz
  | ApAdd
  | ApAdd1
  | OpcodeCall
  | OpcodeRet
  | OpcodeAssertEq
  | Zero
deriving DecidableEq

/-- Discriminant of a Flag, exactly the Rust `flag as usize` value. -/
def Flag.toIndex : Flag → Nat
  | .DstReg => 0
  | .Op0Reg => 1
  | .Op1Imm => 2
  | .Op1Fp => 3
  | .Op1Ap => 4
  | .ResAdd => 5
  | .ResMul => 6
  | .PcJumpAbs => 7
  | .PcJumpRel => 8
  | .PcJnz => 9
  | .ApAdd => 10
  | .ApAdd1 => 11
  | .OpcodeCall => 12
  | .OpcodeRet => 13
  | .OpcodeAssertEq => 14
  | .Zero => 15

/-- Cairo flag group (binary.rs lines 337 to 345, lib.rs lines 88 to 96). -/
inductive FlagGroup where
  | DstReg
  | Op0Reg
  | Op1Src
  | ResLogic
  | PcUpdate
  | ApUpdate
  | Opcode
deriving DecidableEq

/-- A Cairo word: the U256 payload of Word (binary.rs line 178, lib.rs
line 110). The field element interpretation is given by into_felt. -/
structure Word where
  val : Nat
deriving DecidableEq

/-- get_flag (binary.rs lines 202 to 204): bit test at
FLAGS_BIT_OFFSET plus the flag discriminant. -/
def Word.get_flag (w : Word) (f : Flag) : Bool :=
  w.val.testBit (FLAGS_BIT_OFFSET + f.toIndex)

/-- get_flag_prefix of binary.rs (lines 182 to 191): zero for the padding
flag, otherwise the word shifted down to the flag position and masked with
2 ^ (15 - flag) - 1; the Rust bitmask and-operation is written here as
reduction mod 2 ^ (15 - flag), which is the same function. The final
try_into to u64 cannot fail because the masked value is below 2 ^ 15. -/
def Word.getFlagPrefix (w : Word) (f : Flag) : Nat :=
  if f = Flag.Zero then 0
  else (w.val >>> (FLAGS_BIT_OFFSET + f.toIndex)) % 2 ^ (15 - f.toIndex)

/-- get_flag_prefix of lib.rs (lines 119 to 128): identical to the
binary.rs version except that the mask is 2 ^ (14 - flag) - 1, again
written as reduction mod 2 ^ (14 - flag). -/
def Word.libGetFlagPrefix (w : Word) (f : Flag) : Nat :=
  if f = Flag.Zero then 0
  else (w.val >>> (FLAGS_BIT_OFFSET + f.toIndex)) % 2 ^ (14 - f.toIndex)

/-- get_off_dst (binary.rs lines 206 to 210): shift by the dst offset and
mask with OFF_MASK = 0xFFFF, written as reduction mod 2 ^ 16. -/
def Word.get_off_dst (w : Word) : Nat :=
  (w.val >>> OFF_DST_BIT_OFFSET) % 2 ^ 16

/-- get_off_op0 (binary.rs lines 212 to 216). -/
def Word.get_off_op0 (w : Word) : Nat :=
  (w.val >>> OFF_OP0_BIT_OFFSET) % 2 ^ 16

/-- get_off_op1 (binary.rs lines 218 to 222). -/
def Word.get_off_op1 (w : Word) : Nat :=
  (w.val >>> OFF_OP1_BIT_OFFSET) % 2 ^ 16

/-- get_flag_group (binary.rs lines 224 to 250): weighted sums of flag
bits, the Rust `as u8` casts written as Bool.toNat. -/
def Word.get_flag_group (w : Word) : FlagGroup → Nat
  | .DstReg => (w.get_flag Flag.DstReg).toNat
  | .Op0Reg => (w.get_flag Flag.Op0Reg).toNat
  | .Op1Src =>
      (w.get_flag Flag.Op1Imm).toNat + (w.get_flag Flag.Op1Fp).toNat * 2 +
        (w.get_flag Flag.Op1Ap).toNat * 4
  | .ResLogic =>
      (w.get_flag Flag.ResAdd).toNat + (w.get_flag Flag.ResMul).toNat * 2
  | .PcUpdate =>
      (w.get_flag Flag.PcJumpAbs).toNat + (w.get_flag Flag.PcJumpRel).toNat * 2 +
        (w.get_flag Flag.PcJnz).toNat * 4
  | .ApUpdate =>
      (w.get_flag Flag.ApAdd).toNat + (w.get_flag Flag.ApAdd1).toNat * 2
  | .Opcode =>
      (w.get_flag Flag.OpcodeCall).toNat + (w.get_flag Flag.OpcodeRet).toNat * 2 +
        (w.get_flag Flag.OpcodeAssertEq).toNat * 4

/-- Checked usize subtraction: Rust a - b on usize panics on underflow in
debug builds (and wraps in release builds); the panic is modelled as none. -/
def checkedSub (a b : Nat) : Option Nat :=
  if b ≤ a then some (a - b) else none

/-- get_op0_addr (binary.rs lines 193 to 196): off_op0 plus fp or ap
(selected by the Op0Reg flag) minus HALF_OFFSET, with the usize
subtraction made explicit. -/
def Word.get_op0_addr (w : Word) (ap fp : Nat) : Option Nat :=
  checkedSub (w.get_off_op0 + (if w.get_flag Flag.Op0Reg then fp else ap)) HALF_OFFSET

/-- get_dst_addr (binary.rs lines 198 to 200). -/
def Word.get_dst_addr (w : Word) (ap fp : Nat) : Option Nat :=
  checkedSub (w.get_off_dst + (if w.get_flag Flag.DstReg then fp else ap)) HALF_OFFSET

/-- A register state triple (binary.rs lines 38 to 42). -/
structure RegisterState where
  ap : Nat
  fp : Nat
  pc : Nat
deriving DecidableEq

/-- The memory: a dense vector of optional words (binary.rs line 69,
lib.rs line 163). -/
structure Memory where
  cells : List (Option Word)
deriving DecidableEq

/-- Cell lookup. Rust mem[addr] panics when addr is out of bounds and the
callers unwrap the Option, so both an out-of-range address and an absent
cell surface as none here. -/
def Memory.resolve (m : Memory) (a : Nat) : Option Word :=
  m.cells.getD a none

/-- Conversion of a U256 value below 2 ^ 64 into usize; try_from fails
(panics under unwrap) on larger values. -/
def tryIntoUsize (v : Nat) : Option Nat :=
  if v < 2 ^ 64 then some v else none

/-- into_felt (binary.rs lines 329 to 331): the word value reduced into
the field by the natural-number cast. -/
def Word.into_felt (F : Type) [Field F] (w : Word) : F :=
  (w.val : F)

/-- get_dst (binary.rs lines 264 to 266): the memory cell at dst_addr,
unwrapped and converted; the unwrap panic is the none case. -/
def Word.get_dst (F : Type) [Field F] (w : Word) (ap fp : Nat) (mem : Memory) :
    Option F :=
  ((w.get_dst_addr ap fp).bind mem.resolve).map (Word.into_felt F)

/-- get_op1_addr (binary.rs lines 268 to 278): off_op1 plus a base chosen
by the Op1Src flag group (0 dereferences the op0 cell, 1 is pc, 2 is fp,
4 is ap, anything else is unreachable), minus HALF_OFFSET. -/
def Word.get_op1_addr (w : Word) (pc ap fp : Nat) (mem : Memory) : Option Nat :=
  (match w.get_flag_group FlagGroup.Op1Src with
    | 0 => ((w.get_op0_addr ap fp).bind mem.resolve).bind fun w0 => tryIntoUsize w0.val
    | 1 => some pc
    | 2 => some fp
    | 4 => some ap
    | _ => none).bind fun base =>
  checkedSub (w.get_off_op1 + base) HALF_OFFSET

/-- Inverse as in ark_ff: none exactly on the additive identity, otherwise
the multiplicative inverse. -/
def arkInverse (F : Type) [Field F] [DecidableEq F] (d : F) : Option F :=
  if d = 0 then none else some d⁻¹

/-- get_res (binary.rs lines 284 to 314). PcUpdate group 4 with
ResLogic 0, Opcode 0 and ApUpdate not 1 yields the inverse of dst with
zero fallback; groups 0, 1, 2 combine op0 and op1 by the ResLogic group;
every other combination is unreachable (modelled as none, like the
panicking unwraps on the memory lookups). -/
def Word.get_res (F : Type) [Field F] [DecidableEq F] (w : Word)
    (pc ap fp : Nat) (mem : Memory) : Option F :=
  let pc_update := w.get_flag_group FlagGroup.PcUpdate
  let res_logic := w.get_flag_group FlagGroup.ResLogic
  if pc_update = 4 then
    let opcode := w.get_flag_group FlagGroup.Opcode
    let ap_update := w.get_flag_group FlagGroup.ApUpdate
    if res_logic = 0 ∧ opcode = 0 ∧ ap_update ≠ 1 then
      (Word.get_dst F w ap fp mem).map fun d => (arkInverse F d).getD 0
    else none
  else if pc_update = 0 ∨ pc_update = 1 ∨ pc_update = 2 then
    (((w.get_op0_addr ap fp).bind mem.resolve).map (Word.into_felt F)).bind fun op0 =>
    (((w.get_op1_addr pc ap fp mem).bind mem.resolve).map (Word.into_felt F)).bind fun op1 =>
    if res_logic = 0 then some op1
    else if res_logic = 1 then some (op0 + op1)
    else if res_logic = 2 then some (op0 * op1)
    else none
  else none

/-- A panic inside the input-parsing code: the debug_assert in Word::new
(binary.rs lines 254 to 258) firing. -/
inductive ParseError where
  | assertionFailed
deriving DecidableEq

/-- Word::new (binary.rs lines 253 to 258): stores the raw value, after a
debug_assert that it is below the field modulus. The assertion runs only
when debug assertions are enabled, hence the explicit debug parameter. -/
def wordNew (debug : Bool) (p : Nat) (v : Nat) : Except ParseError Word :=
  if debug = true ∧ p ≤ v then Except.error ParseError.assertionFailed
  else Except.ok ⟨v⟩

/-- The reading loop of Memory::from_reader (binary.rs lines 89 to 97):
each (address, raw value) pair is pushed after Word::new checks it; a
panic at any pair aborts the whole read. -/
def readPairs (debug : Bool) (p : Nat) :
    List (Nat × Nat) → Except ParseError (List (Nat × Word))
  | [] => Except.ok []
  | pr :: rest =>
    match wordNew debug p pr.2 with
    | Except.error e => Except.error e
    | Except.ok w =>
      match readPairs debug p rest with
      | Except.error e => Except.error e
      | Except.ok tail => Except.ok ((pr.1, w) :: tail)

/-- The running maximum address tracked by the from_reader loop
(binary.rs lines 88 and 96), starting at 0. -/
def maxAddress (pairs : List (Nat × Nat)) : Nat :=
  pairs.foldl (fun m pr => max m pr.1) 0

/-- The fill loop of Memory::from_reader (binary.rs lines 100 to 104):
start from a vector of size copies of none and write each parsed word at
its address. -/
def memFill (words : List (Nat × Word)) (size : Nat) : List (Option Word) :=
  words.foldl (fun cells pr => cells.set pr.1 (some pr.2)) (List.replicate size none)

/-- Memory::from_reader (binary.rs lines 73 to 107): read and check all
pairs, then build the dense vector sized to the maximum address plus one. -/
def Memory.from_reader (debug : Bool) (p : Nat) (pairs : List (Nat × Nat)) :
    Except ParseError Memory :=
  match readPairs debug p pairs with
  | Except.error e => Except.error e
  | Except.ok words => Except.ok ⟨memFill words (maxAddress pairs + 1)⟩

/-- The map body of CompiledProgram::get_public_memory (binary.rs lines
133 to 144), recursed over the enumerated data entries: entry i goes to
address i + 1 (address 0 is reserved for dummy accesses) with its value
passed through Word::new and into_felt. The data entries are taken as
already-parsed numbers; the U256::from_str string parsing is external
serde plumbing. -/
def publicMemoryAux (F : Type) [Field F] (debug : Bool) (p : Nat) :
    Nat → List Nat → Except ParseError (List (Nat × F))
  | _, [] => Except.ok []
  | i, v :: rest =>
    match wordNew debug p v with
    | Except.error e => Except.error e
    | Except.ok w =>
      match publicMemoryAux F debug p (i + 1) rest with
      | Except.error e => Except.error e
      | Except.ok tail => Except.ok ((i + 1, Word.into_felt F w) :: tail)

/-- CompiledProgram::get_public_memory (binary.rs lines 133 to 144). -/
def CompiledProgram.get_public_memory (F : Type) [Field F] (debug : Bool)
    (p : Nat) (data : List Nat) : Except ParseError (List (Nat × F)) :=
  publicMemoryAux F debug p 0 data

/-- CompiledProgram::get_padding_address_and_value (binary.rs lines 146
to 151): the address one past the public memory, paired with that address
embedded into the field (the u64 cast is lossless here). -/
def CompiledProgram.get_padding_address_and_value (F : Type) [Field F]
    (data : List Nat) : Nat × F :=
  (data.length + 1, ((data.length + 1 : Nat) : F))

/-- Lowercase 0x-prefixed hex rendering of a number, as produced by the
Rust format string with the alternate hex specifier on a BigUint. -/
def hexRepr (n : Nat) : String :=
  "0x" ++ String.mk (Nat.toDigits 16 n)

/-- The str::to_lowercase call on the declared prime, written as a map of
the character-wise lowercase conversion over the string (the prime
strings are plain ASCII hex, where the two agree). -/
def strToLower (s : String) : String :=
  String.mk (s.data.map Char.toLower)

/-- CompiledProgram::validate (binary.rs lines 127 to 131, and the Fp
instance in lib.rs lines 23 to 29): assert_eq of the hex rendering of the
modulus against the lowercased declared prime; true means the assertion
passes. -/
def CompiledProgram.validate (p : Nat) (prime : String) : Bool :=
  hexRepr p == strToLower prime

/-- The validation phase of ExecutionTrace::from_file (lib.rs lines 212
to 217): validate is invoked only under cfg debug_assertions, so the run
proceeds to trace construction exactly when this returns true. -/
def fromFileValidationPasses (debug : Bool) (p : Nat) (prime : String) : Bool :=
  !debug || CompiledProgram.validate p prime

/-- The per-row body of the loop in ExecutionTrace::from_file (lib.rs
lines 224 to 234): Option::map over the memory cell at pc prints the six
flag prefixes when the cell is present and does nothing when it is
absent; the printed numbers are the only observable per-row output. -/
def traceRowOutput (mem : Memory) (s : RegisterState) : Option (List Nat) :=
  (mem.resolve s.pc).map fun w =>
    [w.libGetFlagPrefix Flag.DstReg, w.libGetFlagPrefix Flag.Op0Reg,
     w.libGetFlagPrefix Flag.Op1Imm, w.libGetFlagPrefix Flag.Op1Fp,
     w.libGetFlagPrefix Flag.Op1Ap, w.libGetFlagPrefix Flag.ResAdd]

/-- All rows the from_file loop actually processes: rows whose pc cell is
absent contribute nothing (the Option::map is a no-op for them) and no
error value exists anywhere in the loop; after the loop the function ends
in an unconditional todo panic (lib.rs line 236). -/
def processedRows (mem : Memory) (states : List RegisterState) : List (List Nat) :=
  states.filterMap (traceRowOutput mem)

/-- Transcript-visible operations of DefaultCairoProver::generate_proof
(prover.rs lines 55 to 166), named by the channel or public-coin call. -/
inductive ProverEvent where
  | commitBaseTrace
  | drawExtensionChallenges
  | commitExtensionTrace
  | drawCompositionCoeffs
  | commitCompositionTrace
  | drawOodPoint
  | sendExecutionOodEvals
  | sendCompositionOodEvals
  | drawDeepCoeffs
  | commitFriLayers
  | grindNonce
  | drawQueryPositions
deriving DecidableEq

/-- The sequence of transcript operations issued by generate_proof, in
the statement order of prover.rs: commit_base_trace (line 76),
gen_challenges (77), commit_extension_trace (89, only when extension
columns exist), gen_composition_constraint_coeffs (100),
commit_composition_trace (127), get_ood_point (133), the two ood eval
sends (139, 140), gen_deep_composition_coeffs (141), the FRI layer
commitments (148), grind_fri_commitments (150) and
get_fri_query_positions (152). -/
def generateProofEvents (hasExtension : Bool) : List ProverEvent :=
  [ProverEvent.commitBaseTrace, ProverEvent.drawExtensionChallenges] ++
    (if hasExtension then [ProverEvent.commitExtensionTrace] else []) ++
    [ProverEvent.drawCompositionCoeffs, ProverEvent.commitCompositionTrace,
     ProverEvent.drawOodPoint, ProverEvent.sendExecutionOodEvals,
     ProverEvent.sendCompositionOodEvals, ProverEvent.drawDeepCoeffs,
     ProverEvent.commitFriLayers, ProverEvent.grindNonce,
     ProverEvent.drawQueryPositions]

/-- Position of the first occurrence of an event in an event list. -/
def eventIdx (es : List ProverEvent) (e : ProverEvent) : Nat :=
  es.findIdx fun x => decide (x = e)

instance : Fact (Nat.Prime 5) := ⟨by norm_num⟩

/-- Concrete conditional-jump word: off_dst, off_op0 and off_op1 all hold
the bias value 32768 and only the PcJnz flag (bit 57) is set, so the
PcUpdate group is 4 and the ResLogic, Opcode and ApUpdate groups are 0. -/
def wC2 : Word := ⟨32768 + 32768 * 2 ^ 16 + 32768 * 2 ^ 32 + 2 ^ 57⟩

/-- One-cell memory holding the raw value 2 at address 0. -/
def memC2 : Memory := ⟨[some ⟨2⟩]⟩

/-- Concrete immediate-operand word: off_op1 holds the bias value 32768
and only the Op1Imm flag (bit 50) is set, so the Op1Src group is 1. -/
def wC6 : Word := ⟨32768 * 2 ^ 32 + 2 ^ 50⟩

/-- C2: for every well-formed Word whose PcUpdate flag group is 4 with
ResLogic group 0, Opcode group 0 and ApUpdate group not 1, and registers
with the dst memory cell present, get_res returns the multiplicative
inverse of the dst value, and returns the additive identity exactly when
dst is the additive identity. -/
theorem c2_res_conditional_jump (F : Type) [Field F] [DecidableEq F]
    (w : Word) (pc ap fp : Nat) (mem : Memory) (d : F)
    (hpc : w.get_flag_group FlagGroup.PcUpdate = 4)
    (hres : w.get_flag_group FlagGroup.ResLogic = 0)
    (hop : w.get_flag_group FlagGroup.Opcode = 0)
    (hap : w.get_flag_group FlagGroup.ApUpdate ≠ 1)
    (hd : Word.get_dst F w ap fp mem = some d) :
    Word.get_res F w pc ap fp mem = some d⁻¹ ∧
      (Word.get_res F w pc ap fp mem = some 0 ↔ d = 0) := by
  have h1 : Word.get_res F w pc ap fp mem = some ((arkInverse F d).getD 0) := by
    simp only [Word.get_res, hpc, hres, hop, hd]
    rw [if_pos trivial, if_pos ⟨trivial, trivial, hap⟩, Option.map_some']
  have h2 : (arkInverse F d).getD 0 = d⁻¹ := by
    by_cases h : d = 0
    · simp [arkInverse, h]
    · simp [arkInverse, h]
  rw [h2] at h1
  refine ⟨h1, ?_⟩
  rw [h1]
  constructor
  · intro h
    have h3 := Option.some.inj h
    rwa [inv_eq_zero] at h3
  · intro h
    subst h
    simp

/-- Witness for C2 at the concrete conditional-jump word over ZMod 5:
dst is the raw value 2 at address 0, so res is its inverse. -/
theorem c2_res_conditional_jump_witness :
    Word.get_flag_group wC2 FlagGroup.PcUpdate = 4 ∧
      Word.get_res (ZMod 5) wC2 0 0 0 memC2 = some ((2 : ZMod 5)⁻¹) ∧
      (Word.get_res (ZMod 5) wC2 0 0 0 memC2 = some 0 ↔ (2 : ZMod 5) = 0) := by
  have h := c2_res_conditional_jump (ZMod 5) wC2 0 0 0 memC2 2
    (by decide) (by decide) (by decide) (by decide) (by decide)
  exact ⟨by decide, h.1, h.2⟩

/-- C3 is false as stated: on the well-formed word with exactly the
OpcodeAssertEq flag bit (bit 62) set, the binary.rs flag-prefix at
DstReg keeps flag 14 (value 2 ^ 14) while the lib.rs flag-prefix masks
it away (value 0), because lib.rs uses the mask 2 ^ (14 - flag) - 1
instead of 2 ^ (15 - flag) - 1. -/
theorem c3_flag_prefix_mismatch :
    Word.getFlagPrefix ⟨2 ^ 62⟩ Flag.DstReg = 2 ^ 14 ∧
      Word.libGetFlagPrefix ⟨2 ^ 62⟩ Flag.DstReg = 0 ∧
      2 ^ 62 < FpModulus := by decide

/-- C6: for every Word whose Op1Src flag group is 1, get_op1_addr equals
pc plus off_op1 minus half_offset and is independent of ap, fp and the
memory contents (no memory dereference occurs). The usize subtraction is
explicit: when it does not underflow the address is literally
pc + off_op1 - HALF_OFFSET. -/
theorem c6_op1_addr_immediate (w : Word) (pc ap fp ap2 fp2 : Nat)
    (mem mem2 : Memory) (h : w.get_flag_group FlagGroup.Op1Src = 1)
    (hge : HALF_OFFSET ≤ pc + w.get_off_op1) :
    Word.get_op1_addr w pc ap fp mem = some (pc + w.get_off_op1 - HALF_OFFSET) ∧
      Word.get_op1_addr w pc ap fp mem = Word.get_op1_addr w pc ap2 fp2 mem2 := by
  have hrw : ∀ (a f : Nat) (m : Memory),
      Word.get_op1_addr w pc a f m = checkedSub (w.get_off_op1 + pc) HALF_OFFSET := by
    intro a f m
    unfold Word.get_op1_addr
    rw [h]
    rfl
  constructor
  · rw [hrw ap fp mem]
    rw [checkedSub, if_pos (by omega), Nat.add_comm w.get_off_op1 pc]
  · rw [hrw ap fp mem, hrw ap2 fp2 mem2]

/-- Witness for C6 at the concrete immediate-operand word with pc 5: the
address is 5 regardless of the registers and the memory. -/
theorem c6_op1_addr_immediate_witness :
    Word.get_flag_group wC6 FlagGroup.Op1Src = 1 ∧
      HALF_OFFSET ≤ 5 + Word.get_off_op1 wC6 ∧
      Word.get_op1_addr wC6 5 0 0 ⟨[]⟩ = some (5 + Word.get_off_op1 wC6 - HALF_OFFSET) ∧
      Word.get_op1_addr wC6 5 0 0 ⟨[]⟩ = Word.get_op1_addr wC6 5 7 9 ⟨[some ⟨1⟩]⟩ := by
  have h := c6_op1_addr_immediate wC6 5 0 0 7 9 ⟨[]⟩ ⟨[some ⟨1⟩]⟩
    (by decide) (by decide)
  exact ⟨by decide, by decide, h.1, h.2⟩

/-- C8 is false as stated: on the well-formed zero word with ap and fp
both zero, get_op0_addr underflows the usize subtraction of HALF_OFFSET
(a panic in debug builds), so the derived address computations are not
total on every input. -/
theorem c8_addr_not_total :
    Word.get_op0_addr ⟨0⟩ 0 0 = none ∧ (0 : Nat) < FpModulus := by decide

/-- C8 amended: the flag, flag-group, offset-field and flag-prefix
accessors are total with range bounds that make their internal u64 and
usize conversions infallible (offsets below 2 ^ 16, prefixes below
2 ^ 15, groups at most 7), while get_op0_addr and get_dst_addr succeed
exactly when the biased offset plus the selected register is at least
HALF_OFFSET, the condition under which the usize subtraction does not
underflow. -/
theorem c8_decoder_totality (w : Word) (ap fp : Nat) :
    Word.get_off_dst w < 2 ^ 16 ∧ Word.get_off_op0 w < 2 ^ 16 ∧
      Word.get_off_op1 w < 2 ^ 16 ∧
      (∀ f : Flag, Word.getFlagPrefix w f < 2 ^ 15) ∧
      (∀ g : FlagGroup, Word.get_flag_group w g ≤ 7) ∧
      (∀ f : Flag, Word.get_flag w f = true ∨ Word.get_flag w f = false) ∧
      ((Word.get_op0_addr w ap fp).isSome ↔
        HALF_OFFSET ≤ Word.get_off_op0 w + (if Word.get_flag w Flag.Op0Reg then fp else ap)) ∧
      ((Word.get_dst_addr w ap fp).isSome ↔
        HALF_OFFSET ≤ Word.get_off_dst w + (if Word.get_flag w Flag.DstReg then fp else ap)) := by
  refine ⟨Nat.mod_lt _ (by norm_num), Nat.mod_lt _ (by norm_num),
    Nat.mod_lt _ (by norm_num), ?_, ?_, ?_, ?_, ?_⟩
  · intro f
    rw [Word.getFlagPrefix]
    by_cases hf : f = Flag.Zero
    · rw [if_pos hf]
      norm_num
    · rw [if_neg hf]
      calc (w.val >>> (FLAGS_BIT_OFFSET + f.toIndex)) % 2 ^ (15 - f.toIndex)
          < 2 ^ (15 - f.toIndex) := Nat.mod_lt _ (Nat.pos_pow_of_pos _ (by norm_num))
        _ ≤ 2 ^ 15 := Nat.pow_le_pow_right (by norm_num) (by omega)
  · intro g
    cases g with
    | DstReg =>
        have h1 := Bool.toNat_le (w.get_flag Flag.DstReg)
        simp only [Word.get_flag_group]
        omega
    | Op0Reg =>
        have h1 := Bool.toNat_le (w.get_flag Flag.Op0Reg)
        simp only [Word.get_flag_group]
        omega
    | Op1Src =>
        have h1 := Bool.toNat_le (w.get_flag Flag.Op1Imm)
        have h2 := Bool.toNat_le (w.get_flag Flag.Op1Fp)
        have h3 := Bool.toNat_le (w.get_flag Flag.Op1Ap)
        simp only [Word.get_flag_group]
        omega
    | ResLogic =>
        have h1 := Bool.toNat_le (w.get_flag Flag.ResAdd)
        have h2 := Bool.toNat_le (w.get_flag Flag.ResMul)
        simp only [Word.get_flag_group]
        omega
    | PcUpdate =>
        have h1 := Bool.toNat_le (w.get_flag Flag.PcJumpAbs)
        have h2 := Bool.toNat_le (w.get_flag Flag.PcJumpRel)
        have h3 := Bool.toNat_le (w.get_flag Flag.PcJnz)
        simp only [Word.get_flag_group]
        omega
    | ApUpdate =>
        have h1 := Bool.toNat_le (w.get_flag Flag.ApAdd)
        have h2 := Bool.toNat_le (w.get_flag Flag.ApAdd1)
        simp only [Word.get_flag_group]
        omega
    | Opcode =>
        have h1 := Bool.toNat_le (w.get_flag Flag.OpcodeCall)
        have h2 := Bool.toNat_le (w.get_flag Flag.OpcodeRet)
        have h3 := Bool.toNat_le (w.get_flag Flag.OpcodeAssertEq)
        simp only [Word.get_flag_group]
        omega
  · intro f
    cases w.get_flag f
    · right
      rfl
    · left
      rfl
  · rw [Word.get_op0_addr, checkedSub]
    split
    · simp [*]
    · simp [*]
  · rw [Word.get_dst_addr, checkedSub]
    split
    · simp [*]
    · simp [*]

/-- C1 fails on the code: a two-row trace over a memory whose cell 0 is
absent and whose cell 1 holds the zero word. The first register state
(pc 0) resolves to the absent cell; the loop in
ExecutionTrace::from_file produces no error for it and silently skips
it — only the second row (pc 1) is processed, and no MalformedInput
value exists anywhere in the crate (the function afterwards ends in an
unconditional todo panic, lib.rs line 236). -/
theorem c1_absent_pc_row_silently_skipped :
    processedRows ⟨[none, some ⟨0⟩]⟩ [⟨0, 0, 0⟩, ⟨0, 0, 1⟩] = [[0, 0, 0, 0, 0, 0]] ∧
      traceRowOutput ⟨[none, some ⟨0⟩]⟩ ⟨0, 0, 0⟩ = none ∧
      (processedRows ⟨[none, some ⟨0⟩]⟩ [⟨0, 0, 0⟩, ⟨0, 0, 1⟩]).length ≠ 2 := by
  decide

/-- C5: in the transcript operation sequence of generate_proof, the base
trace commitment root is absorbed before the extension challenges are
drawn; when extension columns exist their commitment root is absorbed
before the constraint-composition coefficients are drawn (without them
the base root still precedes that draw); and the composition commitment
root is absorbed before the out-of-domain point is drawn. Both values of
the extension-presence switch are covered. -/
theorem c5_transcript_stage_order :
    (eventIdx (generateProofEvents true) ProverEvent.commitBaseTrace <
        eventIdx (generateProofEvents true) ProverEvent.drawExtensionChallenges) ∧
      (eventIdx (generateProofEvents false) ProverEvent.commitBaseTrace <
        eventIdx (generateProofEvents false) ProverEvent.drawExtensionChallenges) ∧
      (eventIdx (generateProofEvents true) ProverEvent.commitExtensionTrace <
        eventIdx (generateProofEvents true) ProverEvent.drawCompositionCoeffs) ∧
      (eventIdx (generateProofEvents false) ProverEvent.commitBaseTrace <
        eventIdx (generateProofEvents false) ProverEvent.drawCompositionCoeffs) ∧
      (eventIdx (generateProofEvents true) ProverEvent.commitCompositionTrace <
        eventIdx (generateProofEvents true) ProverEvent.drawOodPoint) ∧
      (eventIdx (generateProofEvents false) ProverEvent.commitCompositionTrace <
        eventIdx (generateProofEvents false) ProverEvent.drawOodPoint) ∧
      (eventIdx (generateProofEvents true) ProverEvent.drawExtensionChallenges <
        eventIdx (generateProofEvents true) ProverEvent.commitExtensionTrace) := by
  decide

theorem memFillFold_length (ws : List (Nat × Word)) :
    ∀ init : List (Option Word),
      (ws.foldl (fun cells pr => cells.set pr.1 (some pr.2)) init).length = init.length := by
  induction ws with
  | nil => intro init; rfl
  | cons hd tl ih =>
      intro init
      rw [List.foldl_cons, ih, List.length_set]

theorem memFillFold_not_mem (ws : List (Nat × Word)) (a : Nat)
    (h : a ∉ ws.map Prod.fst) :
    ∀ init : List (Option Word),
      (ws.foldl (fun cells pr => cells.set pr.1 (some pr.2)) init)[a]? = init[a]? := by
  induction ws with
  | nil => intro init; rfl
  | cons hd tl ih =>
      intro init
      have hne : hd.1 ≠ a := by
        intro he
        exact h (by rw [List.map_cons, he]; exact List.mem_cons_self _ _)
      have htl : a ∉ tl.map Prod.fst := by
        intro hm
        exact h (by rw [List.map_cons]; exact List.mem_cons_of_mem _ hm)
      rw [List.foldl_cons, ih htl, List.getElem?_set_ne hne]

theorem memFillFold_mem (ws : List (Nat × Word)) (a : Nat) :
    ∀ init : List (Option Word), a ∈ ws.map Prod.fst → a < init.length →
      ∃ w : Word,
        (ws.foldl (fun cells pr => cells.set pr.1 (some pr.2)) init)[a]? = some (some w) := by
  induction ws with
  | nil =>
      intro init hmem _
      exact absurd hmem (List.not_mem_nil a)
  | cons hd tl ih =>
      intro init hmem hlen
      rw [List.foldl_cons]
      by_cases htl : a ∈ tl.map Prod.fst
      · exact ih (init.set hd.1 (some hd.2)) htl (by rw [List.length_set]; exact hlen)
      · have ha : hd.1 = a := by
          rw [List.map_cons] at hmem
          rcases List.mem_cons.mp hmem with h1 | h1
          · exact h1.symm
          · exact absurd h1 htl
        refine ⟨hd.2, ?_⟩
        rw [memFillFold_not_mem tl a htl, ha, List.getElem?_set_self hlen]

theorem memFillFold_some_source (ws : List (Nat × Word)) (a : Nat) (w : Word) :
    ∀ init : List (Option Word),
      ((ws.foldl (fun cells pr => cells.set pr.1 (some pr.2)) init)[a]?).getD none = some w →
        (a, w) ∈ ws ∨ (init[a]?).getD none = some w := by
  induction ws with
  | nil => intro init h; exact Or.inr h
  | cons hd tl ih =>
      intro init h
      rw [List.foldl_cons] at h
      rcases ih (init.set hd.1 (some hd.2)) h with h1 | h1
      · exact Or.inl (List.mem_cons_of_mem _ h1)
      · by_cases hab : hd.1 = a
        · by_cases hlt : hd.1 < init.length
          · rw [hab] at h1 hlt
            rw [List.getElem?_set_self hlt] at h1
            have h2 : hd.2 = w := Option.some.inj h1
            left
            have h3 : hd = (a, w) := by
              rw [Prod.ext_iff]
              exact ⟨hab, h2⟩
            rw [h3]
            exact List.mem_cons_self _ _
          · rw [List.set_eq_of_length_le (Nat.le_of_not_lt hlt)] at h1
            exact Or.inr h1
        · rw [List.getElem?_set_ne hab] at h1
          exact Or.inr h1

theorem getD_replicate_none_cell (n a : Nat) :
    (((List.replicate n (none : Option Word))[a]?).getD none) = none := by
  rw [List.getElem?_replicate]
  split
  · rfl
  · rfl

theorem foldlMax_start_le (pairs : List (Nat × Nat)) :
    ∀ acc : Nat, acc ≤ pairs.foldl (fun m pr => max m pr.1) acc := by
  induction pairs with
  | nil => intro acc; exact Nat.le_refl acc
  | cons hd tl ih =>
      intro acc
      exact Nat.le_trans (Nat.le_max_left acc hd.1) (ih (max acc hd.1))

theorem mem_le_foldlMax (pairs : List (Nat × Nat)) (pr : Nat × Nat) (h : pr ∈ pairs) :
    ∀ acc : Nat, pr.1 ≤ pairs.foldl (fun m q => max m q.1) acc := by
  induction pairs with
  | nil => cases h
  | cons hd tl ih =>
      intro acc
      rw [List.foldl_cons]
      rcases List.mem_cons.mp h with h1 | h1
      · exact Nat.le_trans (h1 ▸ Nat.le_max_right acc hd.1) (foldlMax_start_le tl (max acc hd.1))
      · exact ih h1 (max acc hd.1)

theorem le_maxAddress (pairs : List (Nat × Nat)) (pr : Nat × Nat) (h : pr ∈ pairs) :
    pr.1 ≤ maxAddress pairs :=
  mem_le_foldlMax pairs pr h 0

theorem readPairs_false_eq (p : Nat) :
    ∀ pairs : List (Nat × Nat),
      readPairs false p pairs = Except.ok (pairs.map fun pr => (pr.1, Word.mk pr.2)) := by
  intro pairs
  induction pairs with
  | nil => rfl
  | cons hd tl ih =>
      have hstep : readPairs false p (hd :: tl) =
          match readPairs false p tl with
          | Except.error e => Except.error e
          | Except.ok tail => Except.ok ((hd.1, Word.mk hd.2) :: tail) := rfl
      rw [hstep, ih]
      rfl

theorem wordNew_true_of_lt (p v : Nat) (h : v < p) :
    wordNew true p v = Except.ok ⟨v⟩ := by
  rw [wordNew, if_neg]
  intro hc
  exact Nat.not_le.mpr h hc.2

theorem wordNew_true_of_ge (p v : Nat) (h : p ≤ v) :
    wordNew true p v = Except.error ParseError.assertionFailed := by
  rw [wordNew, if_pos ⟨rfl, h⟩]

theorem readPairs_true_ok (p : Nat) :
    ∀ (pairs : List (Nat × Nat)) (words : List (Nat × Word)),
      readPairs true p pairs = Except.ok words →
        words = (pairs.map fun pr => (pr.1, Word.mk pr.2)) ∧ ∀ pr ∈ pairs, pr.2 < p := by
  intro pairs
  induction pairs with
  | nil =>
      intro words h
      refine ⟨(Except.ok.inj h).symm, ?_⟩
      intro pr hpr
      cases hpr
  | cons hd tl ih =>
      intro words h
      by_cases hv : p ≤ hd.2
      · rw [readPairs, wordNew_true_of_ge p hd.2 hv] at h
        cases h
      · have hlt : hd.2 < p := Nat.not_le.mp hv
        rw [readPairs, wordNew_true_of_lt p hd.2 hlt] at h
        cases hrec : readPairs true p tl with
        | error e =>
            rw [hrec] at h
            cases h
        | ok tail =>
            rw [hrec] at h
            rcases ih tail hrec with ⟨h1, h2⟩
            refine ⟨?_, ?_⟩
            · rw [← Except.ok.inj h, h1, List.map_cons]
            · intro pr hpr
              rcases List.mem_cons.mp hpr with hh | hh
              · rw [hh]
                exact hlt
              · exact h2 pr hh

theorem readPairs_true_error (p : Nat) :
    ∀ pairs : List (Nat × Nat), (∃ pr ∈ pairs, p ≤ pr.2) →
      ∃ e, readPairs true p pairs = Except.error e := by
  intro pairs
  induction pairs with
  | nil =>
      rintro ⟨pr, hm, _⟩
      cases hm
  | cons hd tl ih =>
      rintro ⟨pr, hm, hp⟩
      by_cases hv : p ≤ hd.2
      · refine ⟨ParseError.assertionFailed, ?_⟩
        rw [readPairs, wordNew_true_of_ge p hd.2 hv]
      · have hm2 : pr ∈ tl := by
          rcases List.mem_cons.mp hm with h1 | h1
          · exact absurd (h1 ▸ hp) hv
          · exact h1
        rcases ih ⟨pr, hm2, hp⟩ with ⟨e, he⟩
        refine ⟨e, ?_⟩
        rw [readPairs, wordNew_true_of_lt p hd.2 (Nat.not_le.mp hv), he]

/-- C10: for every memory stream accepted by from_reader, the Memory is
sized to the maximum address seen plus one, resolve returns some word
exactly at the written addresses and none everywhere else, and the empty
stream yields the one-cell Memory whose single cell at address 0 is
absent. The debug switch is off so the range debug_assert (settled under
C4) does not interfere. -/
theorem c10_memory_construction (p : Nat) (pairs : List (Nat × Nat)) (mem : Memory)
    (h : Memory.from_reader false p pairs = Except.ok mem) :
    mem.cells.length = maxAddress pairs + 1 ∧
      (∀ a, a ∈ pairs.map Prod.fst → ∃ w, mem.resolve a = some w) ∧
      (∀ a, a ∉ pairs.map Prod.fst → mem.resolve a = none) ∧
      Memory.from_reader false p ([] : List (Nat × Nat)) = Except.ok ⟨[none]⟩ := by
  rw [Memory.from_reader, readPairs_false_eq p pairs] at h
  have h2 : Except.ok (⟨memFill (pairs.map fun pr => (pr.1, Word.mk pr.2))
      (maxAddress pairs + 1)⟩ : Memory) = Except.ok mem := h
  have hmem : mem = ⟨memFill (pairs.map fun pr => (pr.1, Word.mk pr.2))
      (maxAddress pairs + 1)⟩ := (Except.ok.inj h2).symm
  subst hmem
  have hmf : (pairs.map fun pr => (pr.1, Word.mk pr.2)).map Prod.fst =
      pairs.map Prod.fst := by
    rw [List.map_map]
    rfl
  refine ⟨?_, ?_, ?_, rfl⟩
  · show (memFill _ _).length = _
    rw [memFill, memFillFold_length, List.length_replicate]
  · intro a ha
    have ha2 : a ∈ (pairs.map fun pr => (pr.1, Word.mk pr.2)).map Prod.fst := by
      rw [hmf]
      exact ha
    have hlt : a < (List.replicate (maxAddress pairs + 1) (none : Option Word)).length := by
      rw [List.length_replicate]
      rcases List.mem_map.mp ha with ⟨pr, hpr, hfst⟩
      have := le_maxAddress pairs pr hpr
      omega
    rcases memFillFold_mem _ a _ ha2 hlt with ⟨w, hw⟩
    refine ⟨w, ?_⟩
    show (memFill _ _).getD a none = some w
    rw [memFill, List.getD_eq_getElem?_getD, hw]
    rfl
  · intro a ha
    have ha2 : a ∉ (pairs.map fun pr => (pr.1, Word.mk pr.2)).map Prod.fst := by
      rw [hmf]
      exact ha
    show (memFill _ _).getD a none = none
    rw [memFill, List.getD_eq_getElem?_getD, memFillFold_not_mem _ a ha2,
      List.getElem?_replicate]
    split
    · rfl
    · rfl

/-- Witness for C10 on the one-pair stream writing raw value 7 at
address 2: the Memory has three cells, address 2 resolves to a word and
address 1 is absent. -/
theorem c10_memory_construction_witness :
    (Memory.cells ⟨[none, none, some ⟨7⟩]⟩).length = maxAddress [(2, 7)] + 1 ∧
      (∃ w, Memory.resolve ⟨[none, none, some ⟨7⟩]⟩ 2 = some w) ∧
      Memory.resolve ⟨[none, none, some ⟨7⟩]⟩ 1 = none := by
  have h := c10_memory_construction 10 [(2, 7)] ⟨[none, none, some ⟨7⟩]⟩ (by rfl)
  exact ⟨h.1, h.2.1 2 (by decide), h.2.2.1 1 (by decide)⟩

/-- C4 fails as stated: with debug assertions disabled (a release build)
the modulus check in Word::new is skipped, so the one-pair stream whose
raw value 5 equals the modulus 5 constructs successfully and the
resulting Memory contains a Word whose value is not below the modulus. -/
theorem c4_release_stores_out_of_range :
    Memory.from_reader false 5 [(0, 5)] = Except.ok ⟨[some ⟨5⟩]⟩ ∧
      Memory.resolve ⟨[some ⟨5⟩]⟩ 0 = some ⟨5⟩ ∧ ¬ Word.val ⟨5⟩ < 5 := by
  refine ⟨rfl, rfl, ?_⟩
  decide

/-- C4 amended: when debug assertions are enabled, Memory construction
fails whenever some raw value reaches the field modulus, and a
successfully constructed Memory never contains a Word whose value
reaches the modulus; with debug assertions disabled the check is
skipped. -/
theorem c4_debug_range_check (p : Nat) (pairs : List (Nat × Nat)) :
    ((∃ pr ∈ pairs, p ≤ pr.2) → ∀ mem, Memory.from_reader true p pairs ≠ Except.ok mem) ∧
      (∀ mem, Memory.from_reader true p pairs = Except.ok mem →
        ∀ a w, mem.resolve a = some w → w.val < p) := by
  constructor
  · intro hex mem hcontra
    rcases readPairs_true_error p pairs hex with ⟨e, he⟩
    rw [Memory.from_reader, he] at hcontra
    cases hcontra
  · intro mem h a w hw
    cases hrec : readPairs true p pairs with
    | error e =>
        rw [Memory.from_reader, hrec] at h
        cases h
    | ok words =>
        rw [Memory.from_reader, hrec] at h
        rcases readPairs_true_ok p pairs words hrec with ⟨hwords, hrange⟩
        have hmem : mem = ⟨memFill words (maxAddress pairs + 1)⟩ := (Except.ok.inj h).symm
        subst hmem
        have hw2 : ((memFill words (maxAddress pairs + 1)).getD a none) = some w := hw
        rw [memFill, List.getD_eq_getElem?_getD] at hw2
        rcases memFillFold_some_source words a w _ hw2 with h1 | h1
        · rw [hwords] at h1
          rcases List.mem_map.mp h1 with ⟨pr, hpr, hg⟩
          have hval : w = ⟨pr.2⟩ := by
            rw [Prod.ext_iff] at hg
            exact hg.2.symm
          rw [hval]
          exact hrange pr hpr
        · rw [getD_replicate_none_cell] at h1
          cases h1

/-- Witness for C4 at modulus 5: the stream writing raw value 5 is
rejected in a debug build, and from the accepted stream writing raw
value 3 every resolved word is in range. -/
theorem c4_debug_range_check_witness :
    Memory.from_reader true 5 [(0, 5)] ≠ Except.ok ⟨[some ⟨5⟩]⟩ ∧
      Word.val ⟨3⟩ < 5 := by
  have h1 := c4_debug_range_check 5 [(0, 5)]
  have h2 := c4_debug_range_check 5 [(0, 3)]
  refine ⟨h1.1 (by decide) _, ?_⟩
  exact h2.2 ⟨[some ⟨3⟩]⟩ (by rfl) 0 ⟨3⟩ (by rfl)

theorem publicMemoryAux_ok (F : Type) [Field F] (p : Nat) :
    ∀ (data : List Nat) (i : Nat), (∀ v ∈ data, v < p) →
      publicMemoryAux F true p i data =
        Except.ok ((data.enumFrom i).map fun pr => (pr.1 + 1, ((pr.2 : Nat) : F))) := by
  intro data
  induction data with
  | nil => intro i _; rfl
  | cons v rest ih =>
      intro i h
      have hv : v < p := h v (List.mem_cons_self v rest)
      have hstep : publicMemoryAux F true p i (v :: rest) =
          match publicMemoryAux F true p (i + 1) rest with
          | Except.error e => Except.error e
          | Except.ok tail => Except.ok ((i + 1, Word.into_felt F ⟨v⟩) :: tail) := by
        rw [publicMemoryAux, wordNew_true_of_lt p v hv]
      rw [hstep, ih (i + 1) (fun u hu => h u (List.mem_cons_of_mem v hu))]
      rfl

/-- C7: for a compiled program whose data entries are all in range,
get_public_memory maps the i-th entry (0-based) to memory address i + 1
with its value embedded into the field (address 0 is never used), and
get_padding_address_and_value returns the address one past the last
public-memory address paired with the field embedding of that address. -/
theorem c7_public_memory (F : Type) [Field F] (p : Nat) (data : List Nat)
    (h : ∀ v ∈ data, v < p) :
    CompiledProgram.get_public_memory F true p data =
        Except.ok (data.enum.map fun pr => (pr.1 + 1, ((pr.2 : Nat) : F))) ∧
      CompiledProgram.get_padding_address_and_value F data =
        (data.length + 1, ((data.length + 1 : Nat) : F)) := by
  refine ⟨?_, rfl⟩
  rw [CompiledProgram.get_public_memory, publicMemoryAux_ok F p data 0 h]
  rfl

/-- Witness for C7 over ZMod 5 with the two data entries 3 and 1: they
land at addresses 1 and 2, and the padding pair is address 3 with field
value 3. -/
theorem c7_public_memory_witness :
    CompiledProgram.get_public_memory (ZMod 5) true 5 [3, 1] =
        Except.ok [(1, ((3 : Nat) : ZMod 5)), (2, ((1 : Nat) : ZMod 5))] ∧
      CompiledProgram.get_padding_address_and_value (ZMod 5) [3, 1] =
        (3, ((3 : Nat) : ZMod 5)) := by
  have h := c7_public_memory (ZMod 5) 5 [3, 1] (by decide)
  constructor
  · rw [h.1]
    rfl
  · rw [h.2]
    rfl

/-- A declared prime string that does not match the Fp modulus. -/
def badPrimeC9 : String := "0x1"

/-- C9 fails as stated: on a mismatched prime string, validate itself
fails, yet with debug assertions disabled (a release build)
ExecutionTrace::from_file skips the cfg-guarded validate call and
proceeds to trace construction, so the abort does not happen in every
build. -/
theorem c9_release_skips_validation :
    CompiledProgram.validate FpModulus badPrimeC9 = false ∧
      fromFileValidationPasses false FpModulus badPrimeC9 = true := by
  exact ⟨by decide, rfl⟩

/-- C9 amended: validate succeeds exactly when the lowercased declared
prime equals the 0x-prefixed lowercase hex rendering of the modulus, and
the from_file validation abort happens exactly in builds with debug
assertions enabled — with them the run proceeds if and only if validate
passes, without them it always proceeds. -/
theorem c9_validate_iff (p : Nat) (prime : String) :
    (CompiledProgram.validate p prime = true ↔ strToLower prime = hexRepr p) ∧
      fromFileValidationPasses true p prime = CompiledProgram.validate p prime ∧
      fromFileValidationPasses false p prime = true := by
  refine ⟨?_, rfl, rfl⟩
  rw [CompiledProgram.validate]
  constructor
  · intro h
    exact (beq_iff_eq.mp h).symm
  · intro h
    exact beq_iff_eq.mpr h.symm

end Sandstorm
